import Mathlib

/-!
# Verification of the Qanounek hybrid retrieval & ranking engine

Shallow embedding of `backend/src/vector_store/hybrid_search.py` and
`backend/src/vector_store/search.py`.  Python floats are modelled as
exact rationals (`ℚ`), Python strings as `String` (or `List Char` where
character-level slicing matters), Python dicts as insertion-ordered
association lists, and Python's stable `list.sort(key=..., reverse=True)`
as a stable descending insertion sort.
-/

namespace Qanounek

/-- Python's stable insertion of `x` into a descending-sorted list:
`x` is placed before the first element strictly smaller than it, hence
after every already-present element of equal key (stability). -/
def insertDesc (key : α → ℚ) (x : α) : List α → List α
  | [] => [x]
  | y :: ys => if key y < key x then x :: y :: ys else y :: insertDesc key x ys

/-- Stable descending sort by a rational key, processing elements left to
right; models Python's `list.sort(key=..., reverse=True)` (Timsort is
stable, and `reverse=True` does not reorder equal elements). -/
def sortDesc (key : α → ℚ) (l : List α) : List α :=
  l.foldl (fun acc x => insertDesc key x acc) []

/-- Descending-sortedness by a key. -/
def SortedDescBy (key : α → ℚ) (l : List α) : Prop :=
  l.Pairwise (fun a b => key b ≤ key a)

/-- Python's `max` over a non-empty list (junk value on `[]`, which the
translated code never hits). -/
def pyMax : List ℚ → ℚ
  | [] => 1
  | x :: xs => xs.foldl max x

/-- Python's `min` over a non-empty list (junk value on `[]`). -/
def pyMin : List ℚ → ℚ
  | [] => 0
  | x :: xs => xs.foldl min x

/-- `HybridSearchEngine._normalize_scores`, reduced to the score lists it
manipulates: min-max normalisation, with every score mapped to `1.0`
when all scores coincide. -/
def normalizeScores (scores : List ℚ) : List ℚ :=
  match scores with
  | [] => []
  | s :: ss =>
    let maxScore := pyMax (s :: ss)
    let minScore := pyMin (s :: ss)
    if maxScore = minScore then
      (s :: ss).map (fun _ => 1)
    else
      (s :: ss).map (fun x => (x - minScore) / (maxScore - minScore))

/-! ## Basic facts about `pyMax` / `pyMin` -/

theorem foldl_max_le {l : List ℚ} {a b : ℚ} (h : a ≤ b) :
    (∀ x ∈ l, x ≤ b) → l.foldl max a ≤ b := by
  induction l generalizing a with
  | nil => intro _; simpa using h
  | cons y ys ih =>
    intro hall
    have hy : y ≤ b := hall y (by simp)
    exact ih (max_le h hy) (fun x hx => hall x (by simp [hx]))

theorem le_foldl_max {l : List ℚ} (a : ℚ) : a ≤ l.foldl max a := by
  induction l generalizing a with
  | nil => simp
  | cons y ys ih => exact le_trans (le_max_left a y) (ih (max a y))

theorem mem_le_foldl_max {l : List ℚ} {x : ℚ} (a : ℚ) (hx : x ∈ l) :
    x ≤ l.foldl max a := by
  induction l generalizing a with
  | nil => cases hx
  | cons y ys ih =>
    rcases List.mem_cons.mp hx with h | h
    · subst h
      exact le_trans (le_max_right a x) (le_foldl_max (max a x))
    · exact ih (max a y) h

theorem foldl_max_mem {l : List ℚ} (a : ℚ) :
    l.foldl max a = a ∨ l.foldl max a ∈ l := by
  induction l generalizing a with
  | nil => simp
  | cons y ys ih =>
    rcases ih (max a y) with h | h
    · rcases le_total a y with hay | hya
      · right; rw [List.foldl_cons, h, max_eq_right hay]; simp
      · left; rw [List.foldl_cons, h, max_eq_left hya]
    · right; simp [h]

theorem pyMax_mem {l : List ℚ} (h : l ≠ []) : pyMax l ∈ l := by
  cases l with
  | nil => exact absurd rfl h
  | cons x xs =>
    rcases foldl_max_mem (l := xs) x with h' | h'
    · simp [pyMax, h']
    · simp [pyMax, h']

theorem le_pyMax {l : List ℚ} {x : ℚ} (hx : x ∈ l) : x ≤ pyMax l := by
  cases l with
  | nil => cases hx
  | cons y ys =>
    rcases List.mem_cons.mp hx with h | h
    · subst h; exact le_foldl_max _
    · exact mem_le_foldl_max _ h

theorem foldl_min_le (a : ℚ) (l : List ℚ) : l.foldl min a ≤ a := by
  induction l generalizing a with
  | nil => simp
  | cons y ys ih => exact le_trans (ih (min a y)) (min_le_left a y)

theorem foldl_min_le_mem {l : List ℚ} {x : ℚ} (a : ℚ) (hx : x ∈ l) :
    l.foldl min a ≤ x := by
  induction l generalizing a with
  | nil => cases hx
  | cons y ys ih =>
    rcases List.mem_cons.mp hx with h | h
    · subst h
      calc (x :: ys).foldl min a = ys.foldl min (min a x) := by simp
        _ ≤ min a x := foldl_min_le _ _
        _ ≤ x := min_le_right a x
    · exact ih (min a y) h

theorem foldl_min_mem {l : List ℚ} (a : ℚ) :
    l.foldl min a = a ∨ l.foldl min a ∈ l := by
  induction l generalizing a with
  | nil => simp
  | cons y ys ih =>
    rcases ih (min a y) with h | h
    · rcases le_total a y with hay | hya
      · left; rw [List.foldl_cons, h, min_eq_left hay]
      · right; rw [List.foldl_cons, h, min_eq_right hya]; simp
    · right; simp [h]

theorem pyMin_mem {l : List ℚ} (h : l ≠ []) : pyMin l ∈ l := by
  cases l with
  | nil => exact absurd rfl h
  | cons x xs =>
    rcases foldl_min_mem (l := xs) x with h' | h'
    · simp [pyMin, h']
    · simp [pyMin, h']

theorem pyMin_le {l : List ℚ} {x : ℚ} (hx : x ∈ l) : pyMin l ≤ x := by
  cases l with
  | nil => cases hx
  | cons y ys =>
    rcases List.mem_cons.mp hx with h | h
    · subst h; exact foldl_min_le x ys
    · exact foldl_min_le_mem _ h

/-! ## Facts about the stable descending sort -/

theorem insertDesc_perm (key : α → ℚ) (x : α) (l : List α) :
    (insertDesc key x l).Perm (x :: l) := by
  induction l with
  | nil => simp [insertDesc]
  | cons y ys ih =>
    by_cases h : key y < key x
    · simp [insertDesc, h]
    · simp only [insertDesc, if_neg h]
      exact (List.Perm.cons y ih).trans (List.Perm.swap x y ys)

theorem sortDesc_core_perm (key : α → ℚ) (l acc : List α) :
    (l.foldl (fun a x => insertDesc key x a) acc).Perm (acc ++ l) := by
  induction l generalizing acc with
  | nil => simp
  | cons y ys ih =>
    simp only [List.foldl_cons]
    refine (ih (insertDesc key y acc)).trans ?_
    have h1 : (insertDesc key y acc ++ ys).Perm ((y :: acc) ++ ys) :=
      (insertDesc_perm key y acc).append_right ys
    refine h1.trans ?_
    simpa using (@List.perm_middle _ y acc ys).symm

theorem sortDesc_perm (key : α → ℚ) (l : List α) :
    (sortDesc key l).Perm l := by
  simpa [sortDesc] using sortDesc_core_perm key l []

theorem mem_sortDesc {key : α → ℚ} {l : List α} {x : α} :
    x ∈ sortDesc key l ↔ x ∈ l :=
  (sortDesc_perm key l).mem_iff

theorem insertDesc_sorted {key : α → ℚ} {l : List α} (x : α)
    (h : SortedDescBy key l) : SortedDescBy key (insertDesc key x l) := by
  induction l with
  | nil => simp [insertDesc, SortedDescBy]
  | cons y ys ih =>
    rcases List.pairwise_cons.mp h with ⟨hy, hys⟩
    by_cases hxy : key y < key x
    · simp only [insertDesc, if_pos hxy]
      refine List.pairwise_cons.mpr ⟨?_, h⟩
      intro z hz
      rcases List.mem_cons.mp hz with rfl | hz
      · exact le_of_lt hxy
      · exact le_trans (hy z hz) (le_of_lt hxy)
    · simp only [insertDesc, if_neg hxy]
      refine List.pairwise_cons.mpr ⟨?_, ih hys⟩
      intro z hz
      have hz' := (insertDesc_perm key x ys).mem_iff.mp hz
      rcases List.mem_cons.mp hz' with rfl | hz'
      · exact le_of_not_lt hxy
      · exact hy z hz'

theorem sortDesc_core_sorted (key : α → ℚ) (l : List α) {acc : List α}
    (hacc : SortedDescBy key acc) :
    SortedDescBy key (l.foldl (fun a x => insertDesc key x a) acc) := by
  induction l generalizing acc with
  | nil => exact hacc
  | cons y ys ih => exact ih (insertDesc_sorted y hacc)

theorem sortDesc_sorted (key : α → ℚ) (l : List α) :
    SortedDescBy key (sortDesc key l) :=
  sortDesc_core_sorted key l (by simp [SortedDescBy])

theorem sublist_insertDesc {key : α → ℚ} {s l : List α} (x : α)
    (h : s.Sublist l) : s.Sublist (insertDesc key x l) := by
  induction l generalizing s with
  | nil => simpa [insertDesc] using h.trans (List.nil_sublist [x])
  | cons y ys ih =>
    by_cases hxy : key y < key x
    · simpa [insertDesc, hxy] using List.Sublist.cons x h
    · simp only [insertDesc, if_neg hxy]
      cases h with
      | cons _ h' => exact List.Sublist.cons y (ih h')
      | cons₂ _ h' => exact List.Sublist.cons₂ y (ih h')

/-- An element of a descending-sorted list whose key is not below `key x`
stays in front of `x` when `x` is stably inserted. -/
theorem insertDesc_after {key : α → ℚ} {l : List α} {a x : α}
    (hsorted : SortedDescBy key l) (ha : a ∈ l) (hk : key x ≤ key a) :
    [a, x].Sublist (insertDesc key x l) := by
  induction l with
  | nil => cases ha
  | cons y ys ih =>
    rcases List.pairwise_cons.mp hsorted with ⟨hy, hys⟩
    by_cases hxy : key y < key x
    · exfalso
      rcases List.mem_cons.mp ha with rfl | ha'
      · exact absurd hxy (not_lt.mpr hk)
      · exact absurd (lt_of_lt_of_le hxy (le_trans hk (hy a ha'))) (lt_irrefl _)
    · simp only [insertDesc, if_neg hxy]
      rcases List.mem_cons.mp ha with rfl | ha'
      · exact List.Sublist.cons₂ a (List.singleton_sublist.mpr (by
          exact (insertDesc_perm key x ys).mem_iff.mpr (by simp)))
      · exact List.Sublist.cons y (ih hys ha')

theorem foldl_insert_sublist (key : α → ℚ) {s : List α} (l : List α) {acc : List α}
    (h : s.Sublist acc) :
    s.Sublist (l.foldl (fun a x => insertDesc key x a) acc) := by
  induction l generalizing acc with
  | nil => exact h
  | cons y ys ih => exact ih (sublist_insertDesc y h)

theorem foldl_insert_after (key : α → ℚ) {a b : α} (hk : key b ≤ key a) :
    ∀ (l : List α) (acc : List α), SortedDescBy key acc → a ∈ acc → b ∈ l →
    [a, b].Sublist (l.foldl (fun a x => insertDesc key x a) acc)
  | x :: xs, acc, hsorted, ha, hb => by
    rcases List.mem_cons.mp hb with rfl | hb'
    · exact foldl_insert_sublist key xs (insertDesc_after hsorted ha hk)
    · exact foldl_insert_after key hk xs (insertDesc key x acc)
        (insertDesc_sorted x hsorted)
        ((insertDesc_perm key x acc).mem_iff.mpr (by simp [ha])) hb'

theorem sortDesc_stable_aux (key : α → ℚ) {a b : α} (hk : key a = key b) :
    ∀ (l : List α) {acc : List α}, SortedDescBy key acc → [a, b].Sublist l →
    [a, b].Sublist (l.foldl (fun a x => insertDesc key x a) acc)
  | x :: xs, acc, hsorted, h => by
    cases h with
    | cons _ h' =>
      exact sortDesc_stable_aux key hk xs (insertDesc_sorted x hsorted) h'
    | cons₂ _ h' =>
      exact foldl_insert_after key (le_of_eq hk.symm) xs (insertDesc key a acc)
        (insertDesc_sorted a hsorted)
        ((insertDesc_perm key a acc).mem_iff.mpr (by simp))
        (List.singleton_sublist.mp h')

/-- Stability of the descending sort: two elements with equal keys keep
their relative order. -/
theorem sortDesc_stable (key : α → ℚ) {a b : α} {l : List α}
    (h : [a, b].Sublist l) (hk : key a = key b) :
    [a, b].Sublist (sortDesc key l) :=
  sortDesc_stable_aux key hk l (by simp [SortedDescBy]) h

/-! ## Auxiliary facts about `pyMax`/`pyMin` versus "all scores equal" -/

theorem pyMax_eq_of_mem_of_le {l : List ℚ} {m : ℚ} (hm : m ∈ l)
    (hub : ∀ x ∈ l, x ≤ m) : pyMax l = m :=
  le_antisymm (hub _ (pyMax_mem (List.ne_nil_of_mem hm))) (le_pyMax hm)

theorem pyMin_eq_of_mem_of_le {l : List ℚ} {m : ℚ} (hm : m ∈ l)
    (hlb : ∀ x ∈ l, m ≤ x) : pyMin l = m :=
  le_antisymm (pyMin_le hm) (hlb _ (pyMin_mem (List.ne_nil_of_mem hm)))

theorem pyMax_eq_pyMin_iff {l : List ℚ} (h : l ≠ []) :
    pyMax l = pyMin l ↔ ∀ x ∈ l, ∀ y ∈ l, x = y := by
  constructor
  · intro heq x hx y hy
    have h1 : x ≤ pyMax l := le_pyMax hx
    have h2 : pyMin l ≤ x := pyMin_le hx
    have h3 : y ≤ pyMax l := le_pyMax hy
    have h4 : pyMin l ≤ y := pyMin_le hy
    have hxv : x = pyMax l := le_antisymm h1 (heq ▸ h2)
    have hyv : y = pyMax l := le_antisymm h3 (heq ▸ h4)
    rw [hxv, hyv]
  · intro hall
    exact hall _ (pyMax_mem h) _ (pyMin_mem h)

/-- C2 helper: the claim's description of the normalized list. -/
theorem normalizeScores_cases (scores : List ℚ) (hne : scores ≠ []) :
    (¬ (∀ x ∈ scores, ∀ y ∈ scores, x = y) →
       pyMax (normalizeScores scores) = 1 ∧ pyMin (normalizeScores scores) = 0 ∧
       ∀ y ∈ normalizeScores scores, 0 ≤ y ∧ y ≤ 1) ∧
    ((∀ x ∈ scores, ∀ y ∈ scores, x = y) →
       ∀ y ∈ normalizeScores scores, y = 1) := by
  cases scores with
  | nil => exact absurd rfl hne
  | cons s ss =>
    set l : List ℚ := s :: ss with hl
    have hlne : l ≠ [] := by simp [hl]
    constructor
    · intro hneq
      have hcond : ¬ pyMax l = pyMin l := fun hc => hneq ((pyMax_eq_pyMin_iff hlne).mp hc)
      have hlt : pyMin l < pyMax l := by
        have hs : s ∈ l := by simp [hl]
        have hle : pyMin l ≤ pyMax l := le_trans (pyMin_le hs) (le_pyMax hs)
        exact lt_of_le_of_ne hle (fun hc => hcond hc.symm)
      have hpos : 0 < pyMax l - pyMin l := by linarith
      have hform : normalizeScores l =
          l.map (fun x => (x - pyMin l) / (pyMax l - pyMin l)) := by
        simp only [normalizeScores, hl, if_neg hcond]
      have hbounds : ∀ y ∈ normalizeScores l, 0 ≤ y ∧ y ≤ 1 := by
        intro y hy
        rw [hform] at hy
        rcases List.mem_map.mp hy with ⟨x, hx, rfl⟩
        constructor
        · exact div_nonneg (by have := pyMin_le hx; linarith) (le_of_lt hpos)
        · rw [div_le_one hpos]
          have := le_pyMax hx
          linarith
      refine ⟨?_, ?_, hbounds⟩
      · apply pyMax_eq_of_mem_of_le
        · rw [hform]
          refine List.mem_map.mpr ⟨pyMax l, pyMax_mem hlne, ?_⟩
          exact div_self (ne_of_gt hpos)
        · intro x hx; exact (hbounds x hx).2
      · apply pyMin_eq_of_mem_of_le
        · rw [hform]
          refine List.mem_map.mpr ⟨pyMin l, pyMin_mem hlne, ?_⟩
          simp
        · intro x hx; exact (hbounds x hx).1
    · intro hall y hy
      have hcond : pyMax l = pyMin l := (pyMax_eq_pyMin_iff hlne).mpr hall
      simp only [normalizeScores, hl, if_pos hcond] at hy
      rcases List.mem_map.mp hy with ⟨x, _, rfl⟩
      rfl

/-! ## Data model

Fragment metadata as stored in the vector-store payloads; only the
fields the ranking engine reads are modelled. -/

structure Metadata where
  code_source : String
  article_number : String
  chunk_id : String
  deriving DecidableEq, Repr

/-- `HybridSearchEngine._get_doc_id`. -/
def getDocId (m : Metadata) : String :=
  m.code_source ++ "_" ++ m.article_number ++ "_" ++ m.chunk_id

/-- A vector-search hit as produced by `_vector_search` (dict with
`text`, `metadata`, `score`, `search_type='vector'`, `vector_score`;
`vector_score` equals `score` there, but is kept separate to mirror the
dict). Python strings are `List Char` so character slicing is exact. -/
structure VecHit where
  text : List Char
  metadata : Metadata
  vector_score : ℚ
  deriving DecidableEq, Repr

/-- A BM25 hit as produced by `_bm25_search` (dict with `text`,
`metadata`, `score`, `search_type='bm25'`, `bm25_score`). -/
structure BmHit where
  text : List Char
  metadata : Metadata
  bm25_score : ℚ
  deriving DecidableEq, Repr

/-- A merged document as assembled by `_merge_results` (the dynamic dict
fields `vector_score_norm`, `bm25_score_norm`, final `score`,
`search_type`). -/
structure MergedDoc where
  text : List Char
  metadata : Metadata
  score : ℚ
  searchType : String
  vectorScoreNorm : ℚ
  bm25ScoreNorm : ℚ
  deriving DecidableEq, Repr

/-! ### Insertion-ordered dictionaries (Python `dict`) -/

/-- Python `d[k] = v`: overwrite in place if the key exists (keeping its
insertion position), otherwise append. -/
def dictSet (k : String) (v : β) : List (String × β) → List (String × β)
  | [] => [(k, v)]
  | (k', v') :: rest => if k' = k then (k, v) :: rest else (k', v') :: dictSet k v rest

/-- Python `d.get(k)` / `k in d`. -/
def dictFind? (k : String) (m : List (String × β)) : Option β :=
  (m.find? (fun p => p.1 = k)).map (·.2)

theorem mem_dictSet {k : String} {v : β} {m : List (String × β)} {p : String × β}
    (hp : p ∈ dictSet k v m) : p = (k, v) ∨ p ∈ m := by
  induction m with
  | nil => simpa [dictSet] using hp
  | cons q rest ih =>
    by_cases hk : q.1 = k
    · rcases q with ⟨k', v'⟩
      simp only [dictSet, if_pos hk] at hp
      rcases List.mem_cons.mp hp with rfl | hp'
      · exact Or.inl rfl
      · exact Or.inr (List.mem_cons.mpr (Or.inr hp'))
    · rcases q with ⟨k', v'⟩
      simp only [dictSet, if_neg hk] at hp
      rcases List.mem_cons.mp hp with rfl | hp'
      · exact Or.inr (List.mem_cons.mpr (Or.inl rfl))
      · rcases ih hp' with h | h
        · exact Or.inl h
        · exact Or.inr (List.mem_cons.mpr (Or.inr h))

/-- Generic fold invariant preservation. -/
theorem foldl_inv {P : γ → Prop} {f : γ → β → γ} {l : List β}
    (hstep : ∀ x ∈ l, ∀ s, P s → P (f s x)) {init : γ} (h0 : P init) :
    P (l.foldl f init) := by
  induction l generalizing init with
  | nil => exact h0
  | cons y ys ih =>
    exact ih (fun x hx s hs => hstep x (by simp [hx]) s hs)
      (hstep y (by simp) init h0)

/-! ### `HybridSearchEngine._merge_results` -/

/-- Step 1 of `_merge_results`: seed the merged dict with the normalized
vector hits (`bm25_score_norm` starts at 0). -/
def mergeVecStep (m : List (String × MergedDoc)) (rn : VecHit × ℚ) :
    List (String × MergedDoc) :=
  dictSet (getDocId rn.1.metadata)
    { text := rn.1.text, metadata := rn.1.metadata, score := rn.1.vector_score,
      searchType := "vector", vectorScoreNorm := rn.2, bm25ScoreNorm := 0 } m

/-- Step 2 of `_merge_results`: fold in the normalized BM25 hits,
upgrading a fragment already found by vector search to `hybrid`. -/
def mergeBmStep (m : List (String × MergedDoc)) (rn : BmHit × ℚ) :
    List (String × MergedDoc) :=
  match dictFind? (getDocId rn.1.metadata) m with
  | some d =>
    dictSet (getDocId rn.1.metadata)
      { d with bm25ScoreNorm := rn.2, searchType := "hybrid" } m
  | none =>
    m ++ [(getDocId rn.1.metadata,
      { text := rn.1.text, metadata := rn.1.metadata, score := rn.1.bm25_score,
        searchType := "bm25", vectorScoreNorm := 0, bm25ScoreNorm := rn.2 })]

/-- The merged dict after both loops of `_merge_results` (before the
final-score loop). -/
def mergedDict (vres : List VecHit) (bres : List BmHit) :
    List (String × MergedDoc) :=
  let vnorm := vres.zip (normalizeScores (vres.map (·.vector_score)))
  let bnorm := bres.zip (normalizeScores (bres.map (·.bm25_score)))
  bnorm.foldl mergeBmStep (vnorm.foldl mergeVecStep [])

/-- The final-score loop of `_merge_results`:
`score = 0.4 * vector_score_norm + 0.6 * bm25_score_norm`. -/
def fuseScore (d : MergedDoc) : MergedDoc :=
  { d with score := 0.4 * d.vectorScoreNorm + 0.6 * d.bm25ScoreNorm }

/-- `HybridSearchEngine._merge_results`: normalize both hit lists,
merge by document identity, fuse scores with weights 0.4 (vector) and
0.6 (BM25), sort descending by fused score, truncate to `limit`. -/
def mergeResults (vres : List VecHit) (bres : List BmHit) (limit : ℕ) :
    List MergedDoc :=
  let scored := (mergedDict vres bres).map (fun p => (p.1, fuseScore p.2))
  (sortDesc (fun d => d.score) (scored.map (·.2))).take limit

/-! ### The merged-dict invariant behind claim C1 -/

theorem dictFind?_mem {k : String} {m : List (String × β)} {v : β}
    (h : dictFind? k m = some v) : (k, v) ∈ m := by
  unfold dictFind? at h
  cases hf : m.find? (fun p => p.1 = k) with
  | none => rw [hf] at h; cases h
  | some p =>
    rw [hf] at h
    have hmem := List.mem_of_find?_eq_some hf
    have hpred := List.find?_some hf
    rcases p with ⟨k', v'⟩
    have hk : k' = k := by simpa using hpred
    have hv : v' = v := by simpa using h
    subst hk
    subst hv
    exact hmem

/-- Invariant carried through both merge loops: every entry is keyed by
its own document id, an entry whose id never occurs in the vector hits
has normalized vector score `0`, and symmetrically for BM25. -/
def MergeInv (vIds bIds : List String) (m : List (String × MergedDoc)) : Prop :=
  ∀ p ∈ m, p.1 = getDocId p.2.metadata ∧
    (p.1 ∉ vIds → p.2.vectorScoreNorm = 0) ∧
    (p.1 ∉ bIds → p.2.bm25ScoreNorm = 0)

theorem mergeVecStep_inv {vres : List VecHit} {bIds : List String}
    {m : List (String × MergedDoc)} {rn : VecHit × ℚ} (hr : rn.1 ∈ vres)
    (hm : MergeInv (vres.map (fun r => getDocId r.metadata)) bIds m) :
    MergeInv (vres.map (fun r => getDocId r.metadata)) bIds (mergeVecStep m rn) := by
  intro p hp
  have hid : getDocId rn.1.metadata ∈ vres.map (fun r => getDocId r.metadata) :=
    List.mem_map.mpr ⟨rn.1, hr, rfl⟩
  rcases mem_dictSet hp with rfl | hp'
  · exact ⟨rfl, fun hnv => absurd hid hnv, fun _ => rfl⟩
  · exact hm p hp'

theorem mergeBmStep_inv {bres : List BmHit} {vIds : List String}
    {m : List (String × MergedDoc)} {rn : BmHit × ℚ} (hr : rn.1 ∈ bres)
    (hm : MergeInv vIds (bres.map (fun r => getDocId r.metadata)) m) :
    MergeInv vIds (bres.map (fun r => getDocId r.metadata)) (mergeBmStep m rn) := by
  intro p hp
  have hid : getDocId rn.1.metadata ∈ bres.map (fun r => getDocId r.metadata) :=
    List.mem_map.mpr ⟨rn.1, hr, rfl⟩
  unfold mergeBmStep at hp
  cases hfind : dictFind? (getDocId rn.1.metadata) m with
  | some d =>
    rw [hfind] at hp
    rcases mem_dictSet hp with rfl | hp'
    · have hd := hm (getDocId rn.1.metadata, d) (dictFind?_mem hfind)
      refine ⟨?_, ?_, ?_⟩
      · simpa using hd.1
      · intro hnv
        simpa using hd.2.1 hnv
      · intro hnb
        exact absurd hid hnb
    · exact hm p hp'
  | none =>
    rw [hfind] at hp
    rcases List.mem_append.mp hp with hp' | hp'
    · exact hm p hp'
    · have hpe : p = (getDocId rn.1.metadata,
        { text := rn.1.text, metadata := rn.1.metadata, score := rn.1.bm25_score,
          searchType := "bm25", vectorScoreNorm := 0, bm25ScoreNorm := rn.2 }) := by
        simpa using hp'
      subst hpe
      exact ⟨rfl, fun _ => rfl, fun hnb => absurd hid hnb⟩

theorem mergedDict_inv (vres : List VecHit) (bres : List BmHit) :
    MergeInv (vres.map (fun r => getDocId r.metadata))
      (bres.map (fun r => getDocId r.metadata)) (mergedDict vres bres) := by
  unfold mergedDict
  apply foldl_inv
  · intro rn hrn m hm
    exact mergeBmStep_inv (List.of_mem_zip hrn).1 hm
  · apply foldl_inv
    · intro rn hrn m hm
      exact mergeVecStep_inv (List.of_mem_zip hrn).1 hm
    · intro p hp
      cases hp

/-- C1: for every pair of normalized hit lists merged by fragment
identity, the fused score of each merged fragment equals 0.4 times its
normalized vector score plus 0.6 times its normalized keyword (BM25)
score; a fragment present in only one list receives 0 for the missing
dimension; the merged output is sorted descending by fused score and
truncated to the requested limit. -/
theorem merge_fuses_sorts_and_truncates (vres : List VecHit) (bres : List BmHit)
    (limit : ℕ) (d : MergedDoc) (hd : d ∈ mergeResults vres bres limit) :
    d.score = 0.4 * d.vectorScoreNorm + 0.6 * d.bm25ScoreNorm ∧
    (getDocId d.metadata ∉ vres.map (fun r => getDocId r.metadata) →
      d.vectorScoreNorm = 0) ∧
    (getDocId d.metadata ∉ bres.map (fun r => getDocId r.metadata) →
      d.bm25ScoreNorm = 0) ∧
    SortedDescBy (fun x => x.score) (mergeResults vres bres limit) ∧
    (mergeResults vres bres limit).length ≤ limit := by
  have hsorted : SortedDescBy (fun x => x.score) (mergeResults vres bres limit) := by
    simp only [mergeResults]
    exact List.Pairwise.sublist (List.take_sublist _ _) (sortDesc_sorted _ _)
  have hlen : (mergeResults vres bres limit).length ≤ limit := by
    simp only [mergeResults]
    simp [List.length_take]
  have hd' : d ∈ ((mergedDict vres bres).map (fun p => (p.1, fuseScore p.2))).map (·.2) := by
    have hmem := hd
    simp only [mergeResults] at hmem
    exact mem_sortDesc.mp (List.mem_of_mem_take hmem)
  rcases List.mem_map.mp hd' with ⟨q, hq, hq2⟩
  rcases List.mem_map.mp hq with ⟨p, hp, rfl⟩
  have hinv := mergedDict_inv vres bres p hp
  have hdval : d = fuseScore p.2 := hq2.symm
  subst hdval
  refine ⟨by simp [fuseScore], ?_, ?_, hsorted, hlen⟩
  · intro hnv
    have : p.1 ∉ vres.map (fun r => getDocId r.metadata) := by
      rw [hinv.1]
      simpa [fuseScore] using hnv
    simpa [fuseScore] using hinv.2.1 this
  · intro hnb
    have : p.1 ∉ bres.map (fun r => getDocId r.metadata) := by
      rw [hinv.1]
      simpa [fuseScore] using hnb
    simpa [fuseScore] using hinv.2.2 this

/-- Witness for C1 at a concrete pair of hit lists: the fragment
`ct_2_0` is found by both searches (vector norm 0, BM25 norm 1) and gets
fused score `0.4·0 + 0.6·1 = 0.6`. -/
theorem merge_fuses_sorts_and_truncates_witness :
    (⟨['b'], ⟨"ct", "2", "0"⟩, 0.6, "hybrid", 0, 1⟩ : MergedDoc) ∈
      mergeResults
        [⟨['a'], ⟨"ct", "1", "0"⟩, 0.9⟩, ⟨['b'], ⟨"ct", "2", "0"⟩, 0.5⟩]
        [⟨['c'], ⟨"ct", "2", "0"⟩, 3⟩, ⟨['d'], ⟨"ct", "3", "0"⟩, 1⟩] 2 ∧
    (⟨['b'], ⟨"ct", "2", "0"⟩, 0.6, "hybrid", 0, 1⟩ : MergedDoc).score =
      0.4 * (⟨['b'], ⟨"ct", "2", "0"⟩, 0.6, "hybrid", 0, 1⟩ : MergedDoc).vectorScoreNorm +
      0.6 * (⟨['b'], ⟨"ct", "2", "0"⟩, 0.6, "hybrid", 0, 1⟩ : MergedDoc).bm25ScoreNorm :=
  ⟨by norm_num +decide [mergeResults, mergedDict, mergeVecStep, mergeBmStep,
      fuseScore, normalizeScores, pyMax, pyMin, sortDesc, insertDesc, dictSet,
      dictFind?, getDocId],
   (merge_fuses_sorts_and_truncates
      [⟨['a'], ⟨"ct", "1", "0"⟩, 0.9⟩, ⟨['b'], ⟨"ct", "2", "0"⟩, 0.5⟩]
      [⟨['c'], ⟨"ct", "2", "0"⟩, 3⟩, ⟨['d'], ⟨"ct", "3", "0"⟩, 1⟩] 2
      ⟨['b'], ⟨"ct", "2", "0"⟩, 0.6, "hybrid", 0, 1⟩
      (by norm_num +decide [mergeResults, mergedDict, mergeVecStep, mergeBmStep,
        fuseScore, normalizeScores, pyMax, pyMin, sortDesc, insertDesc, dictSet,
        dictFind?, getDocId])).1⟩

/-- C2: for every non-empty score list, min-max normalization maps the
scores to `[0,1]` so that the maximum normalized value is `1.0` and the
minimum is `0.0`, except when all input scores are equal, in which case
every normalized value is `1.0`. -/
theorem normalize_minmax_or_all_one (scores : List ℚ) (hne : scores ≠ []) :
    ((∃ x ∈ scores, ∃ y ∈ scores, x ≠ y) →
       pyMax (normalizeScores scores) = 1 ∧ pyMin (normalizeScores scores) = 0 ∧
       ∀ y ∈ normalizeScores scores, 0 ≤ y ∧ y ≤ 1) ∧
    ((∀ x ∈ scores, ∀ y ∈ scores, x = y) →
       ∀ y ∈ normalizeScores scores, y = 1) := by
  have h := normalizeScores_cases scores hne
  refine ⟨fun hex => h.1 ?_, h.2⟩
  rcases hex with ⟨x, hx, y, hy, hxy⟩
  intro hall
  exact hxy (hall x hx y hy)

/-- Witness for C2 on the score list `[2, 5]`. -/
theorem normalize_minmax_or_all_one_witness :
    ([(2 : ℚ), 5] ≠ []) ∧ pyMax (normalizeScores [(2 : ℚ), 5]) = 1 :=
  ⟨by decide,
   ((normalize_minmax_or_all_one [(2 : ℚ), 5] (by decide)).1
     ⟨2, by norm_num, 5, by norm_num, by norm_num⟩).1⟩

/-! ## `search.py`: the RAG pipeline -/

/-- Python's `round` to an integer: round half to even. -/
def roundHalfEven (q : ℚ) : ℤ :=
  if q - ⌊q⌋ < 1/2 then ⌊q⌋
  else if 1/2 < q - ⌊q⌋ then ⌊q⌋ + 1
  else if ⌊q⌋ % 2 = 0 then ⌊q⌋ else ⌊q⌋ + 1

/-- Python's `round(x, 3)`. -/
def pyRound3 (q : ℚ) : ℚ := (roundHalfEven (q * 1000) : ℚ) / 1000

/-- A search hit flowing through `RAGSearchEngine` (dict with `text`,
`metadata`, `score`, `search_type`). -/
structure SChunk where
  text : List Char
  metadata : Metadata
  score : ℚ
  searchType : String
  deriving DecidableEq, Repr

/-- The grouping key of `search.py`:
`f"{code_source}_{article_number}"` (no chunk sub-index). -/
def articleKey (m : Metadata) : String :=
  m.code_source ++ "_" ++ m.article_number

/-- The fixed code-name display table of `_extract_sources`
(`dict.get(code_source, code_source)`). -/
def codeDisplay (code : String) : String :=
  if code = "code_travail" then "Code du Travail"
  else if code = "code_penal" then "Code Pénal"
  else if code = "code_commerce" then "Code de Commerce"
  else if code = "code_route" then "Code de la Route"
  else if code = "code_procedure_civile" then "Code de Procédure Civile"
  else code

/-- A source entry returned by `_extract_sources`. -/
structure Source where
  article_number : String
  code_source : String
  relevance_score : ℚ
  text_preview : List Char
  search_type : String
  deriving DecidableEq, Repr

/-- The source entry built from one chunk by `_extract_sources`:
display name, score rounded to 3 decimals, preview truncated at 150
characters with an appended `"..."`. -/
def mkSource (r : SChunk) : Source :=
  { article_number := r.metadata.article_number,
    code_source := codeDisplay r.metadata.code_source,
    relevance_score := pyRound3 r.score,
    text_preview :=
      if r.text.length > 150 then r.text.take 150 ++ ['.', '.', '.'] else r.text,
    search_type := r.searchType }

/-- The loop of `_extract_sources`, with the `seen_articles` set made
explicit. -/
def extractSourcesAux (seen : List String) : List SChunk → List Source
  | [] => []
  | r :: rest =>
    if articleKey r.metadata ∈ seen then extractSourcesAux seen rest
    else mkSource r :: extractSourcesAux (articleKey r.metadata :: seen) rest

/-- `RAGSearchEngine._extract_sources`. -/
def extractSources (results : List SChunk) : List Source :=
  extractSourcesAux [] results

/-- The chunks whose entries `_extract_sources` emits (same loop,
keeping the chunk instead of the formatted entry). -/
def emittedChunks (seen : List String) : List SChunk → List SChunk
  | [] => []
  | r :: rest =>
    if articleKey r.metadata ∈ seen then emittedChunks seen rest
    else r :: emittedChunks (articleKey r.metadata :: seen) rest

/-- Python `grouped[k].append(v)`, creating `grouped[k] = []` first when
the key is new. -/
def dictAppend (k : String) (v : SChunk) :
    List (String × List SChunk) → List (String × List SChunk)
  | [] => [(k, [v])]
  | (k', vs) :: rest =>
    if k' = k then (k', vs ++ [v]) :: rest else (k', vs) :: dictAppend k v rest

/-- Python `d[k]` with a default (the translated lookups never miss). -/
def dictGetD (m : List (String × β)) (k : String) (d : β) : β :=
  (dictFind? k m).getD d

/-- `chunks[0]['score']` of a sorted group (groups are never empty). -/
def bestScore : List SChunk → ℚ
  | [] => 0
  | c :: _ => c.score

/-- Mean fragment score of a group. -/
def avgScore (chunks : List SChunk) : ℚ :=
  (chunks.map (·.score)).sum / chunks.length

/-- The `grouped` dict of `_group_chunks_by_article`: chunks grouped by
article key, keys in order of first appearance. -/
def groupedBy (results : List SChunk) : List (String × List SChunk) :=
  results.foldl (fun m r => dictAppend (articleKey r.metadata) r m) []

/-- The groups after the in-place `chunks.sort(key=score, reverse=True)`. -/
def sortedGroups (results : List SChunk) : List (String × List SChunk) :=
  (groupedBy results).map (fun p => (p.1, sortDesc (fun c => c.score) p.2))

/-- The `article_scores` dict: `best*0.7 + avg*0.3` per group. -/
def articleScores (results : List SChunk) : List (String × ℚ) :=
  (sortedGroups results).map
    (fun p => (p.1, bestScore p.2 * 0.7 + avgScore p.2 * 0.3))

/-- `RAGSearchEngine._group_chunks_by_article`: group by article key in
first-appearance order, sort each group's chunks descending by score,
compute `best*0.7 + avg*0.3` per group, and return the groups ordered
descending by that composite score. -/
def groupChunksByArticle (results : List SChunk) :
    List (String × List SChunk) :=
  (sortDesc (fun k => dictGetD (articleScores results) k 0)
      ((articleScores results).map (·.1))).map
    (fun k => (k, dictGetD (sortedGroups results) k []))

/-- `RAGSearchEngine._calculate_confidence`. -/
def calculateConfidence (results : List SChunk) : ℚ :=
  if results.isEmpty then 0
  else
    let topResults := results.take 5
    let avg := (topResults.map (·.score)).sum / topResults.length
    let sourceFactor := min ((results.length : ℚ) / 3) 1
    let hybridBonus : ℚ :=
      if results.any (fun r => r.searchType = "hybrid") then 1.1 else 1
    pyRound3 (min (avg * sourceFactor * hybridBonus) 1)

/-- Modelled from the claim's words (C4), for comparison with
`calculateConfidence`: the same formula but with the final value clamped
to `[0,1]` before rounding. -/
def confidenceClaimed (results : List SChunk) : ℚ :=
  if results.isEmpty then 0
  else
    let topResults := results.take 5
    let avg := (topResults.map (·.score)).sum / topResults.length
    let sourceFactor := min ((results.length : ℚ) / 3) 1
    let hybridBonus : ℚ :=
      if results.any (fun r => r.searchType = "hybrid") then 1.1 else 1
    pyRound3 (max 0 (min (avg * sourceFactor * hybridBonus) 1))

/-- A raw hit returned by the external vector store
(`QdrantVectorStore.search` formatted result). -/
structure RawHit where
  text : List Char
  metadata : Metadata
  score : ℚ
  deriving DecidableEq, Repr

/-- The top-level response dict of `search_and_answer`; the degraded
branch omits the `search_types` key, hence the `Option`. -/
structure RagResponse where
  answer : String
  sources : List Source
  confidence : ℚ
  searchResultsCount : ℕ
  searchTypes : Option (List String)
  deriving DecidableEq, Repr

/-- The canned degraded answer of `search_and_answer`. -/
def cannedNoInfo : String :=
  "Aucune information trouvée dans les textes juridiques."

/-- The `search_type = 'vector'` tagging loop of `search_and_answer`. -/
def tagVector (hits : List RawHit) : List SChunk :=
  hits.map (fun r =>
    { text := r.text, metadata := r.metadata, score := r.score,
      searchType := "vector" })

/-- The grouped-then-flattened context list of `search_and_answer`
(`best_articles = list(grouped.values())[:max_results]` then `extend`). -/
def pipelineFlattened (searchResults : List SChunk) (maxResults : ℕ) :
    List SChunk :=
  (((groupChunksByArticle searchResults).map (·.2)).take maxResults).flatten

/-- `RAGSearchEngine.search_and_answer`, with the external collaborators
(query reformulation, embedding + vector store, answer generation)
abstracted as function parameters.  The vector store is queried with
`limit=20`. -/
def searchAndAnswer (reform : String → String)
    (searchFn : String → ℕ → List RawHit)
    (generate : String → List SChunk → String)
    (question : String) (maxResults : ℕ) : RagResponse :=
  let enriched := reform question
  let searchResults := tagVector (searchFn enriched 20)
  if searchResults.isEmpty then
    { answer := cannedNoInfo, sources := [], confidence := 0,
      searchResultsCount := 0, searchTypes := none }
  else
    let flattened := pipelineFlattened searchResults maxResults
    { answer := generate question (flattened.take 10),
      sources := extractSources (flattened.take maxResults),
      confidence := calculateConfidence flattened,
      searchResultsCount := searchResults.length,
      searchTypes := some ((flattened.take 5).map (·.searchType)) }

/-! ## Facts about grouping -/

theorem dictAppend_fst (k : String) (v : SChunk) (m : List (String × List SChunk)) :
    (dictAppend k v m).map (·.1) =
      if k ∈ m.map (·.1) then m.map (·.1) else m.map (·.1) ++ [k] := by
  induction m with
  | nil => simp [dictAppend]
  | cons q rest ih =>
    rcases q with ⟨k', vs⟩
    by_cases hk : k' = k
    · subst hk
      simp [dictAppend]
    · simp only [dictAppend, if_neg hk, List.map_cons, ih]
      have hne : k ≠ k' := fun h => hk h.symm
      by_cases hmem : k ∈ rest.map (·.1)
      · simp [List.mem_cons, hne, hmem]
      · simp [List.mem_cons, hne, hmem]

theorem mem_dictAppend_chunks {k : String} {v : SChunk}
    {m : List (String × List SChunk)} {p : String × List SChunk}
    (hp : p ∈ dictAppend k v m) : ∀ c ∈ p.2, c = v ∨ ∃ q ∈ m, c ∈ q.2 := by
  induction m with
  | nil =>
    intro c hc
    simp only [dictAppend, List.mem_singleton] at hp
    subst hp
    simp only [List.mem_singleton] at hc
    exact Or.inl hc
  | cons q rest ih =>
    rcases q with ⟨k', vs⟩
    intro c hc
    by_cases hk : k' = k
    · simp only [dictAppend, if_pos hk] at hp
      rcases List.mem_cons.mp hp with rfl | hp'
      · rcases List.mem_append.mp hc with h | h
        · exact Or.inr ⟨(k', vs), by simp, h⟩
        · simp only [List.mem_singleton] at h
          exact Or.inl h
      · exact Or.inr ⟨p, by simp [hp'], hc⟩
    · simp only [dictAppend, if_neg hk] at hp
      rcases List.mem_cons.mp hp with rfl | hp'
      · exact Or.inr ⟨(k', vs), by simp, hc⟩
      · rcases ih hp' c hc with h | ⟨q, hq, hcq⟩
        · exact Or.inl h
        · exact Or.inr ⟨q, by simp [hq], hcq⟩

theorem dictAppend_values_ne_nil {k : String} {v : SChunk}
    {m : List (String × List SChunk)} (h : ∀ p ∈ m, p.2 ≠ []) :
    ∀ p ∈ dictAppend k v m, p.2 ≠ [] := by
  induction m with
  | nil =>
    intro p hp
    simp only [dictAppend, List.mem_singleton] at hp
    subst hp
    simp
  | cons q rest ih =>
    rcases q with ⟨k', vs⟩
    intro p hp
    by_cases hk : k' = k
    · simp only [dictAppend, if_pos hk] at hp
      rcases List.mem_cons.mp hp with rfl | hp'
      · simp
      · exact h p (by simp [hp'])
    · simp only [dictAppend, if_neg hk] at hp
      rcases List.mem_cons.mp hp with rfl | hp'
      · exact h (k', vs) (by simp)
      · exact ih (fun p hp => h p (by simp [hp])) p hp'

theorem groupedBy_nodup_keys (rs : List SChunk) :
    ((groupedBy rs).map (·.1)).Nodup := by
  unfold groupedBy
  apply foldl_inv (P := fun m : List (String × List SChunk) => (m.map (·.1)).Nodup)
  · intro r _ m hm
    rw [dictAppend_fst]
    by_cases hmem : articleKey r.metadata ∈ m.map (·.1)
    · simpa [hmem] using hm
    · simpa [hmem] using List.Nodup.append hm (by simp) (by simpa using hmem)
  · simp

theorem groupedBy_values_ne_nil (rs : List SChunk) :
    ∀ p ∈ groupedBy rs, p.2 ≠ [] := by
  unfold groupedBy
  apply foldl_inv (P := fun m : List (String × List SChunk) => ∀ p ∈ m, p.2 ≠ [])
  · intro r _ m hm
    exact dictAppend_values_ne_nil hm
  · intro p hp
    cases hp

theorem groupedBy_chunks_mem (rs : List SChunk) :
    ∀ p ∈ groupedBy rs, ∀ c ∈ p.2, c ∈ rs := by
  unfold groupedBy
  apply foldl_inv (P := fun m : List (String × List SChunk) =>
    ∀ p ∈ m, ∀ c ∈ p.2, c ∈ rs)
  · intro r hr m hm p hp c hc
    rcases mem_dictAppend_chunks hp c hc with rfl | ⟨q, hq, hcq⟩
    · exact hr
    · exact hm q hq c hcq
  · intro p hp
    cases hp

theorem dictFind?_eq_some_of_mem {m : List (String × β)}
    (hnd : (m.map (·.1)).Nodup) {k : String} {v : β} (hm : (k, v) ∈ m) :
    dictFind? k m = some v := by
  induction m with
  | nil => cases hm
  | cons q rest ih =>
    rcases q with ⟨k', v'⟩
    rcases List.mem_cons.mp hm with heq | hm'
    · rcases Prod.mk.injEq .. ▸ heq with ⟨h1, h2⟩
      subst h1
      subst h2
      simp [dictFind?, List.find?]
    · have hk : k' ≠ k := by
        intro hkk
        subst hkk
        have : k' ∈ rest.map (·.1) := List.mem_map.mpr ⟨(k', v), hm', rfl⟩
        exact (List.nodup_cons.mp (by simpa using hnd)).1 this
      have ihres := ih (List.nodup_cons.mp (by simpa using hnd)).2 hm'
      simp only [dictFind?, List.find?] at ihres ⊢
      have : (decide (k' = k)) = false := by simp [hk]
      rw [this]
      exact ihres

theorem sortedGroups_fst (rs : List SChunk) :
    (sortedGroups rs).map (·.1) = (groupedBy rs).map (·.1) := by
  simp [sortedGroups]

theorem articleScores_fst (rs : List SChunk) :
    (articleScores rs).map (·.1) = (groupedBy rs).map (·.1) := by
  simp [articleScores, sortedGroups]

theorem groupChunks_fst (rs : List SChunk) :
    (groupChunksByArticle rs).map (·.1) =
      sortDesc (fun k => dictGetD (articleScores rs) k 0)
        ((articleScores rs).map (·.1)) := by
  have hmap : ∀ (g : String → List SChunk) (l : List String),
      (l.map (fun k => (k, g k))).map (·.1) = l := by
    intro g l
    induction l with
    | nil => simp
    | cons x xs ih => simp [ih]
  exact hmap _ _

/-- Best score of a non-empty descending-sorted group is the maximum. -/
theorem bestScore_eq_pyMax {g : List SChunk} (hg : g ≠ [])
    (hs : SortedDescBy (fun c => c.score) g) :
    bestScore g = pyMax (g.map (·.score)) := by
  cases g with
  | nil => exact absurd rfl hg
  | cons c cs =>
    have hall := (List.pairwise_cons.mp hs).1
    symm
    apply pyMax_eq_of_mem_of_le (by simp [bestScore])
    intro x hx
    simp only [List.map_cons, List.mem_cons] at hx
    rcases hx with rfl | hx
    · simp [bestScore]
    · rcases List.mem_map.mp hx with ⟨b, hb, rfl⟩
      simpa [bestScore] using hall b hb

/-- The composite score as the spec words it: 0.7 times the best
fragment score plus 0.3 times the mean of the group's fragment scores. -/
def compositeOfGroup (g : List SChunk) : ℚ :=
  0.7 * pyMax (g.map (·.score)) +
    0.3 * ((g.map (·.score)).sum / (g.map (·.score)).length)

/-- The composite the code stores under a key equals the spec-worded
composite of the group returned under that key. -/
theorem key_lookup_composite (rs : List SChunk) {k : String}
    (hk : k ∈ (articleScores rs).map (·.1)) :
    dictGetD (articleScores rs) k 0 =
      compositeOfGroup (dictGetD (sortedGroups rs) k []) := by
  rw [articleScores_fst] at hk
  rcases List.mem_map.mp hk with ⟨p, hp, hpk⟩
  rcases p with ⟨k', v⟩
  rcases hpk
  have hgmem : (k', sortDesc (fun c => c.score) v) ∈ sortedGroups rs :=
    List.mem_map.mpr ⟨(k', v), hp, rfl⟩
  have hndg : ((sortedGroups rs).map (·.1)).Nodup := by
    rw [sortedGroups_fst]; exact groupedBy_nodup_keys rs
  have hnda : ((articleScores rs).map (·.1)).Nodup := by
    rw [articleScores_fst]; exact groupedBy_nodup_keys rs
  have hsmem : (k', bestScore (sortDesc (fun c => c.score) v) * 0.7 +
      avgScore (sortDesc (fun c => c.score) v) * 0.3) ∈ articleScores rs :=
    List.mem_map.mpr ⟨(k', sortDesc (fun c => c.score) v), hgmem, rfl⟩
  have hfg : dictGetD (sortedGroups rs) k' [] = sortDesc (fun c => c.score) v := by
    simp [dictGetD, dictFind?_eq_some_of_mem hndg hgmem]
  have hfa : dictGetD (articleScores rs) k' 0 =
      bestScore (sortDesc (fun c => c.score) v) * 0.7 +
        avgScore (sortDesc (fun c => c.score) v) * 0.3 := by
    simp [dictGetD, dictFind?_eq_some_of_mem hnda hsmem]
  rw [hfa, hfg]
  have hvne : v ≠ [] := groupedBy_values_ne_nil rs _ hp
  have hgne : sortDesc (fun c => c.score) v ≠ [] := by
    intro hnil
    have hperm := sortDesc_perm (fun c => c.score) v
    rw [hnil] at hperm
    exact hvne (List.Perm.eq_nil hperm.symm)
  rw [bestScore_eq_pyMax hgne (sortDesc_sorted _ _)]
  unfold compositeOfGroup avgScore
  rw [List.length_map]
  ring

/-- The spec's worked example: article `41`/`code_travail` with fused
scores `[0.9, 0.6, 0.3]` and article `12`/`code_penal` with
`[0.95, 0.2]` (listed second, so the output order is decided by the
composite score, not by arrival order). -/
def workedExample : List SChunk :=
  [⟨['a'], ⟨"code_travail", "41", "0"⟩, 0.9, "vector"⟩,
   ⟨['b'], ⟨"code_travail", "41", "1"⟩, 0.6, "vector"⟩,
   ⟨['c'], ⟨"code_travail", "41", "2"⟩, 0.3, "vector"⟩,
   ⟨['d'], ⟨"code_penal", "12", "0"⟩, 0.95, "vector"⟩,
   ⟨['e'], ⟨"code_penal", "12", "1"⟩, 0.2, "vector"⟩]

/-- C3: article aggregation computes each group's composite score as
0.7 times the group's best fragment score plus 0.3 times the mean of
all fragment scores in the group, and orders groups descending by
composite score; in particular, the article with fragment scores
`[0.95, 0.2]` (composite 0.8375) ranks before the article with
fragment scores `[0.9, 0.6, 0.3]` (composite 0.81). -/
theorem aggregation_composite_and_ranking (results : List SChunk) :
    (groupChunksByArticle results).Pairwise
      (fun a b => compositeOfGroup b.2 ≤ compositeOfGroup a.2) ∧
    ((groupChunksByArticle workedExample).map (·.1) =
        ["code_penal_12", "code_travail_41"] ∧
      dictGetD (articleScores workedExample) "code_penal_12" 0 = 0.8375 ∧
      dictGetD (articleScores workedExample) "code_travail_41" 0 = 0.81) := by
  constructor
  · unfold groupChunksByArticle
    rw [List.pairwise_map]
    have hsorted := sortDesc_sorted (fun k => dictGetD (articleScores results) k 0)
      ((articleScores results).map (·.1))
    refine List.Pairwise.imp_of_mem ?_ hsorted
    intro a b ha hb h
    have ha' : a ∈ (articleScores results).map (·.1) := mem_sortDesc.mp ha
    have hb' : b ∈ (articleScores results).map (·.1) := mem_sortDesc.mp hb
    have hca := key_lookup_composite results ha'
    have hcb := key_lookup_composite results hb'
    simp only at hca hcb ⊢
    rw [← hca, ← hcb]
    exact h
  · refine ⟨?_, ?_, ?_⟩ <;>
      norm_num +decide [workedExample, groupChunksByArticle, groupedBy,
        sortedGroups, articleScores, dictAppend, dictGetD, dictFind?,
        List.find?, articleKey, bestScore, avgScore, sortDesc, insertDesc]

/-! ## C7: tie-breaking between equal composite scores -/

/-- Two articles with identical composite scores, the higher article
identity arriving first. -/
def tieExampleBA : List SChunk :=
  [⟨['a'], ⟨"c", "2", "0"⟩, 0.5, "vector"⟩,
   ⟨['b'], ⟨"c", "1", "0"⟩, 0.5, "vector"⟩]

/-- Counterexample to C7: with two equal-composite groups arriving as
`c_2` then `c_1`, the output keeps `c_2` first even though ascending
article identity would put `c_1` first. -/
theorem tie_order_not_ascending_cex :
    (groupChunksByArticle tieExampleBA).map (·.1) = ["c_2", "c_1"] ∧
    dictGetD (articleScores tieExampleBA) "c_2" 0 =
      dictGetD (articleScores tieExampleBA) "c_1" 0 ∧
    ("c_1" : String) < "c_2" := by
  refine ⟨?_, ?_, ?_⟩ <;>
    norm_num +decide [tieExampleBA, groupChunksByArticle, groupedBy,
      sortedGroups, articleScores, dictAppend, dictGetD, dictFind?,
      List.find?, articleKey, bestScore, avgScore, sortDesc, insertDesc]

/-- C7 (amended): groups with equal composite scores keep their order of
first appearance in the input (the sort is stable), so the output order
of tied groups follows arrival order, not ascending article identity. -/
theorem tie_order_first_appearance (results : List SChunk) (k1 k2 : String)
    (hsub : [k1, k2].Sublist ((groupedBy results).map (·.1)))
    (heq : dictGetD (articleScores results) k1 0 =
      dictGetD (articleScores results) k2 0) :
    [k1, k2].Sublist ((groupChunksByArticle results).map (·.1)) := by
  rw [groupChunks_fst]
  rw [← articleScores_fst] at hsub
  exact sortDesc_stable _ hsub heq

/-- The tied articles of `tieExampleBA`, arriving in ascending order
instead. -/
def tieExampleAB : List SChunk :=
  [⟨['b'], ⟨"c", "1", "0"⟩, 0.5, "vector"⟩,
   ⟨['a'], ⟨"c", "2", "0"⟩, 0.5, "vector"⟩]

/-- Witness for the amended C7 on `tieExampleAB`. -/
theorem tie_order_first_appearance_witness :
    [("c_1" : String), "c_2"].Sublist ((groupedBy tieExampleAB).map (·.1)) ∧
    dictGetD (articleScores tieExampleAB) "c_1" 0 =
      dictGetD (articleScores tieExampleAB) "c_2" 0 ∧
    [("c_1" : String), "c_2"].Sublist
      ((groupChunksByArticle tieExampleAB).map (·.1)) := by
  have hkeys : (groupedBy tieExampleAB).map (·.1) = ["c_1", "c_2"] := by
    norm_num +decide [tieExampleAB, groupedBy, dictAppend, articleKey]
  have hsub : [("c_1" : String), "c_2"].Sublist ((groupedBy tieExampleAB).map (·.1)) := by
    rw [hkeys]
  have heq : dictGetD (articleScores tieExampleAB) "c_1" 0 =
      dictGetD (articleScores tieExampleAB) "c_2" 0 := by
    norm_num +decide [tieExampleAB, groupedBy, sortedGroups, articleScores,
      dictAppend, dictGetD, dictFind?, List.find?, articleKey, bestScore,
      avgScore, sortDesc, insertDesc]
  exact ⟨hsub, heq, tie_order_first_appearance tieExampleAB "c_1" "c_2" hsub heq⟩

/-! ## C5: source deduplication -/

theorem extractSourcesAux_eq (seen : List String) (rs : List SChunk) :
    extractSourcesAux seen rs = (emittedChunks seen rs).map mkSource := by
  induction rs generalizing seen with
  | nil => simp [extractSourcesAux, emittedChunks]
  | cons r rest ih =>
    by_cases hmem : articleKey r.metadata ∈ seen
    · simp [extractSourcesAux, emittedChunks, hmem, ih]
    · simp [extractSourcesAux, emittedChunks, hmem, ih]

theorem emittedChunks_filter (k : String) (rs : List SChunk) :
    ∀ seen : List String,
      (k ∈ seen →
        (emittedChunks seen rs).filter (fun c => articleKey c.metadata = k) = []) ∧
      (k ∉ seen →
        (emittedChunks seen rs).filter (fun c => articleKey c.metadata = k) =
          (rs.filter (fun c => articleKey c.metadata = k)).take 1) := by
  induction rs with
  | nil => intro seen; simp [emittedChunks]
  | cons r rest ih =>
    intro seen
    by_cases hmem : articleKey r.metadata ∈ seen
    · constructor
      · intro hk
        simp only [emittedChunks, if_pos hmem]
        exact (ih seen).1 hk
      · intro hk
        have hne : ¬ articleKey r.metadata = k := fun h => hk (h ▸ hmem)
        simp only [emittedChunks, if_pos hmem, List.filter_cons, decide_eq_true_eq]
        rw [if_neg hne]
        exact (ih seen).2 hk
    · constructor
      · intro hk
        have hne : ¬ articleKey r.metadata = k := fun h => hmem (h ▸ hk)
        simp only [emittedChunks, if_neg hmem, List.filter_cons, decide_eq_true_eq]
        rw [if_neg hne]
        exact (ih (articleKey r.metadata :: seen)).1 (by simp [hk])
      · intro hk
        by_cases hkey : articleKey r.metadata = k
        · have hrest := (ih (articleKey r.metadata :: seen)).1 (by simp [hkey])
          simp only [emittedChunks, if_neg hmem, List.filter_cons, decide_eq_true_eq]
          rw [if_pos hkey, if_pos hkey, hrest]
          simp
        · have hrest := (ih (articleKey r.metadata :: seen)).2 (by
            simp only [List.mem_cons, not_or]
            exact ⟨fun h => hkey h.symm, hk⟩)
          simp only [emittedChunks, if_neg hmem, List.filter_cons, decide_eq_true_eq]
          rw [if_neg hkey, if_neg hkey]
          exact hrest

/-- C5 (amended): source extraction returns at most one entry per
article identity, and that entry is built from the first fragment with
that identity in input order (the pipeline feeds the extractor each
article's fragments already sorted descending, which makes the first
occurrence the highest-scored one there). -/
theorem extract_sources_dedup_keeps_first (rs : List SChunk) (k : String) :
    extractSources rs = (emittedChunks [] rs).map mkSource ∧
    (emittedChunks [] rs).filter (fun c => articleKey c.metadata = k) =
      (rs.filter (fun c => articleKey c.metadata = k)).take 1 :=
  ⟨extractSourcesAux_eq [] rs, (emittedChunks_filter k rs []).2 (by simp)⟩

/-- Counterexample to C5 as stated: two fragments share the article
identity `c_1` with scores 0.2 (first) and 0.9 (second); extraction
returns exactly one entry, but it carries the lower score 0.2, not the
higher 0.9. -/
theorem extract_sources_keeps_first_cex :
    extractSources
      [⟨['x'], ⟨"c", "1", "0"⟩, 0.2, "vector"⟩,
       ⟨['y'], ⟨"c", "1", "1"⟩, 0.9, "vector"⟩] =
      [⟨"1", "c", 0.2, ['x'], "vector"⟩] ∧
    pyRound3 0.9 = 0.9 ∧ (0.2 : ℚ) ≠ 0.9 := by
  refine ⟨?_, ?_, by norm_num⟩
  · norm_num +decide [extractSources, extractSourcesAux, mkSource, articleKey,
      codeDisplay, pyRound3, roundHalfEven]
  · norm_num [pyRound3, roundHalfEven]

/-! ## C9: preview truncation -/

/-- C9 (amended): the text preview keeps at most 150 characters of the
fragment text, to which a 3-character ellipsis `"..."` is appended
exactly when the text was truncated — so the preview itself can reach
153 characters, not 150. -/
theorem preview_truncation (r : SChunk) :
    (mkSource r).text_preview.length ≤ 153 ∧
    (150 < r.text.length →
      (mkSource r).text_preview = r.text.take 150 ++ ['.', '.', '.'] ∧
      (mkSource r).text_preview.length = 153) ∧
    (r.text.length ≤ 150 → (mkSource r).text_preview = r.text) := by
  by_cases h : r.text.length > 150
  · have hp : (mkSource r).text_preview = r.text.take 150 ++ ['.', '.', '.'] := by
      simp [mkSource, h]
    have hlen : (mkSource r).text_preview.length = 153 := by
      rw [hp, List.length_append, List.length_take, min_eq_left (le_of_lt h)]
      rfl
    exact ⟨le_of_eq hlen, fun _ => ⟨hp, hlen⟩, fun hle => absurd h (not_lt.mpr hle)⟩
  · have hp : (mkSource r).text_preview = r.text := by
      simp [mkSource, h]
    refine ⟨?_, fun hlt => absurd hlt h, fun _ => hp⟩
    rw [hp]
    omega

/-- Counterexample to C9 as stated: a 151-character fragment text gives
a 153-character preview, exceeding the claimed 150-character bound. -/
theorem preview_over_150_cex :
    (mkSource ⟨List.replicate 151 'a', ⟨"c", "1", "0"⟩, 1, "vector"⟩).text_preview.length
      = 153 ∧
    ¬ (mkSource ⟨List.replicate 151 'a', ⟨"c", "1", "0"⟩, 1, "vector"⟩).text_preview.length
      ≤ 150 := by
  have h : (mkSource ⟨List.replicate 151 'a', ⟨"c", "1", "0"⟩, 1, "vector"⟩).text_preview.length
      = 153 := by
    simp [mkSource, List.length_take]
  exact ⟨h, by omega⟩

/-- Witness for the amended C9 on a 151-character text. -/
theorem preview_truncation_witness :
    150 < (List.replicate 151 'a').length ∧
    (mkSource ⟨List.replicate 151 'a', ⟨"c", "1", "0"⟩, 1, "vector"⟩).text_preview.length
      = 153 :=
  ⟨by simp,
   ((preview_truncation ⟨List.replicate 151 'a', ⟨"c", "1", "0"⟩, 1, "vector"⟩).2.1
     (by simp)).2⟩

/-! ## C4: the confidence formula -/

/-- C4 (amended): the computed confidence is the average score of the
top 5 fragments, times `min(count/3, 1)`, times 1.1 when a fragment is
tagged `hybrid`, clamped from above at 1.0 and rounded to 3 decimals;
the code applies no lower clamp, so the claimed clamping to `[0,1]`
holds exactly when the fragment scores are nonnegative. -/
theorem confidence_formula (results : List SChunk) (hne : results ≠ [])
    (hpos : ∀ r ∈ results, 0 ≤ r.score) :
    calculateConfidence results = confidenceClaimed results := by
  have hempty : results.isEmpty = false := by
    cases results with
    | nil => exact absurd rfl hne
    | cons c cs => rfl
  unfold calculateConfidence confidenceClaimed
  rw [hempty]
  simp only [Bool.false_eq_true, if_false]
  have havg : 0 ≤ ((results.take 5).map (·.score)).sum / ((results.take 5).length : ℚ) := by
    apply div_nonneg
    · apply List.sum_nonneg
      intro x hx
      rcases List.mem_map.mp hx with ⟨r, hr, rfl⟩
      exact hpos r (List.mem_of_mem_take hr)
    · exact_mod_cast Nat.zero_le _
  have hfac : (0 : ℚ) ≤ min ((results.length : ℚ) / 3) 1 := by
    apply le_min
    · apply div_nonneg
      · exact_mod_cast Nat.zero_le _
      · norm_num
    · norm_num
  have hbonus : (0 : ℚ) ≤
      (if results.any (fun r => r.searchType = "hybrid") then (1.1 : ℚ) else 1) := by
    split <;> norm_num
  have hprod : (0 : ℚ) ≤ ((results.take 5).map (·.score)).sum / ((results.take 5).length : ℚ) *
      min ((results.length : ℚ) / 3) 1 *
      (if results.any (fun r => r.searchType = "hybrid") then (1.1 : ℚ) else 1) :=
    mul_nonneg (mul_nonneg havg hfac) hbonus
  rw [max_eq_right (le_min hprod (by norm_num))]

/-- Counterexample to C4 as stated: a single fragment with score `-3`
yields confidence `-1` (the code only clamps from above), while the
claimed clamp to `[0,1]` would give `0`. -/
theorem confidence_negative_cex :
    calculateConfidence [⟨['a'], ⟨"c", "1", "0"⟩, -3, "vector"⟩] = -1 ∧
    confidenceClaimed [⟨['a'], ⟨"c", "1", "0"⟩, -3, "vector"⟩] = 0 := by
  constructor <;>
    norm_num +decide [calculateConfidence, confidenceClaimed, pyRound3,
      roundHalfEven, min_def, max_def]

/-- Witness for the amended C4 on one fragment with score 0.5
(confidence `round3(0.5 · 1/3) = 0.167` on both sides). -/
theorem confidence_formula_witness :
    ([⟨['a'], ⟨"c", "1", "0"⟩, 0.5, "vector"⟩] : List SChunk) ≠ [] ∧
    (∀ r ∈ ([⟨['a'], ⟨"c", "1", "0"⟩, 0.5, "vector"⟩] : List SChunk), 0 ≤ r.score) ∧
    calculateConfidence [⟨['a'], ⟨"c", "1", "0"⟩, 0.5, "vector"⟩] =
      confidenceClaimed [⟨['a'], ⟨"c", "1", "0"⟩, 0.5, "vector"⟩] :=
  have hpos : ∀ r ∈ ([⟨['a'], ⟨"c", "1", "0"⟩, 0.5, "vector"⟩] : List SChunk),
      0 ≤ r.score := by
    intro r hr
    rcases List.mem_singleton.mp hr with rfl
    norm_num
  ⟨by simp, hpos, confidence_formula _ (by simp) hpos⟩

/-! ## C6: degraded response on empty retrieval -/

/-- C6: when the retrieval stage returns no fragments, the pipeline
returns the fixed degraded response — confidence 0, no sources, the
canned "no information found" answer, result count 0 — and, being a
total function, this path raises no error. -/
theorem empty_retrieval_degraded (reform : String → String)
    (searchFn : String → ℕ → List RawHit)
    (generate : String → List SChunk → String)
    (question : String) (maxResults : ℕ)
    (h : searchFn (reform question) 20 = []) :
    searchAndAnswer reform searchFn generate question maxResults =
      { answer := cannedNoInfo, sources := [], confidence := 0,
        searchResultsCount := 0, searchTypes := none } := by
  simp [searchAndAnswer, tagVector, h]

/-- Witness for C6 with a vector store returning nothing. -/
theorem empty_retrieval_degraded_witness :
    (fun (_ : String) (_ : ℕ) => ([] : List RawHit)) ((fun (q : String) => q) "q") 20
      = [] ∧
    searchAndAnswer (fun q => q) (fun _ _ => []) (fun _ _ => "") "q" 5 =
      { answer := cannedNoInfo, sources := [], confidence := 0,
        searchResultsCount := 0, searchTypes := none } :=
  ⟨rfl, empty_retrieval_degraded (fun q => q) (fun _ _ => []) (fun _ _ => "") "q" 5 rfl⟩

/-! ## C10: the pipeline never produces hybrid-tagged fragments -/

theorem pipelineFlattened_subset (searchResults : List SChunk) (maxResults : ℕ) :
    ∀ c ∈ pipelineFlattened searchResults maxResults, c ∈ searchResults := by
  intro c hc
  unfold pipelineFlattened at hc
  rcases List.mem_flatten.mp hc with ⟨g, hg, hcg⟩
  have hg' := List.mem_of_mem_take hg
  rcases List.mem_map.mp hg' with ⟨p, hp, rfl⟩
  unfold groupChunksByArticle at hp
  rcases List.mem_map.mp hp with ⟨k, _, rfl⟩
  simp only at hcg
  unfold dictGetD at hcg
  cases hfind : dictFind? k (sortedGroups searchResults) with
  | none => rw [hfind] at hcg; cases hcg
  | some v =>
    rw [hfind] at hcg
    simp only [Option.getD_some] at hcg
    have hkv := dictFind?_mem hfind
    unfold sortedGroups at hkv
    rcases List.mem_map.mp hkv with ⟨q, hq, hqe⟩
    have hv : v = sortDesc (fun c => c.score) q.2 := by
      have := congrArg Prod.snd hqe
      simpa using this.symm
    rw [hv] at hcg
    exact groupedBy_chunks_mem searchResults q hq c (mem_sortDesc.mp hcg)

/-- C10: every fragment flowing out of the top-level pipeline's
grouping stage carries the `vector` search tag (the pipeline queries
only the vector store), so the `hybrid` condition in the confidence
computation never fires and the ×1.1 bonus is never applied. -/
theorem pipeline_only_vector_no_hybrid_bonus (raw : List RawHit) (maxResults : ℕ) :
    (∀ c ∈ pipelineFlattened (tagVector raw) maxResults, c.searchType = "vector") ∧
    (pipelineFlattened (tagVector raw) maxResults).any
      (fun r => r.searchType = "hybrid") = false ∧
    (if (pipelineFlattened (tagVector raw) maxResults).any
        (fun r => r.searchType = "hybrid") then (1.1 : ℚ) else 1) = 1 := by
  have hall : ∀ c ∈ pipelineFlattened (tagVector raw) maxResults,
      c.searchType = "vector" := by
    intro c hc
    have hmem := pipelineFlattened_subset (tagVector raw) maxResults c hc
    unfold tagVector at hmem
    rcases List.mem_map.mp hmem with ⟨r, _, rfl⟩
    rfl
  have hany : (pipelineFlattened (tagVector raw) maxResults).any
      (fun r => r.searchType = "hybrid") = false := by
    rw [List.any_eq_false]
    intro c hc
    simp [hall c hc]
  exact ⟨hall, hany, by rw [hany]; simp⟩

/-! ## C8: keyword-index rebuild -/

/-- The mutable state of `HybridSearchEngine` touched by
`_create_bm25_index`: `self.documents`, `self.metadata_list` and
`self.bm25_index`.  The BM25 structure is identified with the tokenized
corpus it was built from. -/
structure BmState where
  documents : List (List Char)
  metadataList : List Metadata
  bm25Index : Option (List (List String))
  deriving DecidableEq, Repr

/-- The per-result loop of `_create_bm25_index`: each iteration appends
to `self.documents`, then to `self.metadata_list` — two separate
mutations of the live engine state.  Returns the intermediate states
and the state after the loop. -/
def appendLoop : List RawHit → BmState → List BmState × BmState
  | [], s => ([], s)
  | r :: rest, s =>
    let sA := { s with documents := s.documents ++ [r.text] }
    let sB := { sA with metadataList := sA.metadataList ++ [r.metadata] }
    let t := appendLoop rest sB
    (sA :: sB :: t.1, t.2)

/-- `_create_bm25_index` as a state trace: `self.documents = []`, then
`self.metadata_list = []`, then the append loop over the corpus, then —
only when at least one document was tokenized — the single final
assignment of `self.bm25_index` to the freshly built structure.
(`rebuild_bm25_index` merely removes the on-disk cache file before
delegating here, which touches no engine state.) -/
def createBm25Trace (tok : List Char → List String) (corpus : List RawHit)
    (s0 : BmState) : List BmState :=
  let s1 := { s0 with documents := [] }
  let s2 := { s1 with metadataList := [] }
  let lp := appendLoop corpus s2
  s1 :: s2 :: lp.1 ++
    (if corpus.isEmpty then []
     else [{ lp.2 with bm25Index := some (corpus.map (fun r => tok r.text)) }])

/-- Counterexample to C8 as stated: rebuilding over a two-document
corpus from an old one-document snapshot passes through a state whose
document list holds only the first new document while `bm25Index` still
holds the old structure — neither the previous nor the next complete
snapshot. -/
theorem rebuild_partial_state_cex :
    (⟨[['x']], [⟨"cx", "1", "0"⟩], some [["o"]]⟩ : BmState) ∈
      createBm25Trace (fun _ => ["t"])
        [⟨['x'], ⟨"cx", "1", "0"⟩, 1⟩, ⟨['y'], ⟨"cy", "2", "0"⟩, 1⟩]
        ⟨[['o']], [⟨"co", "9", "0"⟩], some [["o"]]⟩ ∧
    (⟨[['x']], [⟨"cx", "1", "0"⟩], some [["o"]]⟩ : BmState) ≠
      ⟨[['o']], [⟨"co", "9", "0"⟩], some [["o"]]⟩ ∧
    (createBm25Trace (fun _ => ["t"])
        [⟨['x'], ⟨"cx", "1", "0"⟩, 1⟩, ⟨['y'], ⟨"cy", "2", "0"⟩, 1⟩]
        ⟨[['o']], [⟨"co", "9", "0"⟩], some [["o"]]⟩).getLast? =
      some ⟨[['x'], ['y']], [⟨"cx", "1", "0"⟩, ⟨"cy", "2", "0"⟩],
        some [["t"], ["t"]]⟩ ∧
    (⟨[['x']], [⟨"cx", "1", "0"⟩], some [["o"]]⟩ : BmState) ≠
      ⟨[['x'], ['y']], [⟨"cx", "1", "0"⟩, ⟨"cy", "2", "0"⟩],
        some [["t"], ["t"]]⟩ := by
  refine ⟨?_, ?_, ?_, ?_⟩ <;> decide

theorem appendLoop_final (corpus : List RawHit) (s : BmState) :
    (appendLoop corpus s).2 =
      { s with documents := s.documents ++ corpus.map (·.text),
               metadataList := s.metadataList ++ corpus.map (·.metadata) } := by
  induction corpus generalizing s with
  | nil => simp [appendLoop]
  | cons r rest ih =>
    simp only [appendLoop, ih]
    simp

theorem appendLoop_states_bm25 (corpus : List RawHit) (s : BmState) :
    ∀ st ∈ (appendLoop corpus s).1, st.bm25Index = s.bm25Index := by
  induction corpus generalizing s with
  | nil => intro st hst; simp [appendLoop] at hst
  | cons r rest ih =>
    intro st hst
    simp only [appendLoop, List.mem_cons] at hst
    rcases hst with rfl | hst
    · rfl
    rcases hst with rfl | hst
    · rfl
    · exact ih ⟨s.documents ++ [r.text], s.metadataList ++ [r.metadata], s.bm25Index⟩ st hst

/-- C8 (amended): a rebuild repopulates `documents` and `metadata_list`
in place, and only the BM25 structure reference is swapped, as the very
last step: every state before the last keeps the old `bm25Index`
(alongside partially rebuilt document lists), and the final state is
the complete new snapshot. -/
theorem rebuild_swaps_index_last (tok : List Char → List String)
    (corpus : List RawHit) (s0 : BmState) (hne : corpus ≠ []) :
    (createBm25Trace tok corpus s0).getLast? =
      some ⟨corpus.map (·.text), corpus.map (·.metadata),
            some (corpus.map (fun r => tok r.text))⟩ ∧
    ∀ s ∈ (createBm25Trace tok corpus s0).dropLast,
      s.bm25Index = s0.bm25Index := by
  have hemp : corpus.isEmpty = false := by
    cases corpus with
    | nil => exact absurd rfl hne
    | cons a l => rfl
  have hfin : { (appendLoop corpus { s0 with documents := [], metadataList := [] }).2
      with bm25Index := some (corpus.map (fun r => tok r.text)) } =
      (⟨corpus.map (·.text), corpus.map (·.metadata),
        some (corpus.map (fun r => tok r.text))⟩ : BmState) := by
    rw [appendLoop_final]
    rfl
  have hshape : createBm25Trace tok corpus s0 =
      ({ s0 with documents := [] } ::
       { s0 with documents := [], metadataList := [] } ::
       (appendLoop corpus { s0 with documents := [], metadataList := [] }).1) ++
      [⟨corpus.map (·.text), corpus.map (·.metadata),
        some (corpus.map (fun r => tok r.text))⟩] := by
    unfold createBm25Trace
    rw [hemp]
    simp only [Bool.false_eq_true, if_false, hfin]
  rw [hshape]
  constructor
  · rw [List.getLast?_concat]
  · rw [List.dropLast_concat]
    intro s hs
    rcases List.mem_cons.mp hs with rfl | hs
    · rfl
    rcases List.mem_cons.mp hs with rfl | hs
    · rfl
    · exact appendLoop_states_bm25 corpus ⟨[], [], s0.bm25Index⟩ s hs

/-- Witness for the amended C8 on a one-document corpus. -/
theorem rebuild_swaps_index_last_witness :
    ([⟨['x'], ⟨"cx", "1", "0"⟩, 1⟩] : List RawHit) ≠ [] ∧
    (createBm25Trace (fun _ => ["t"]) [⟨['x'], ⟨"cx", "1", "0"⟩, 1⟩]
        ⟨[], [], none⟩).getLast? =
      some ⟨([⟨['x'], ⟨"cx", "1", "0"⟩, 1⟩] : List RawHit).map (·.text),
            ([⟨['x'], ⟨"cx", "1", "0"⟩, 1⟩] : List RawHit).map (·.metadata),
            some (([⟨['x'], ⟨"cx", "1", "0"⟩, 1⟩] : List RawHit).map
              (fun r => (fun _ => ["t"]) r.text))⟩ :=
  ⟨by decide,
   (rebuild_swaps_index_last (fun _ => ["t"]) [⟨['x'], ⟨"cx", "1", "0"⟩, 1⟩]
     ⟨[], [], none⟩ (by decide)).1⟩

end Qanounek
